import Mathlib

/-!
# gomatic/gister: the gist package (`internal/gist/gist.go`)

A shallow embedding of the package that builds and sends a gist, and the
properties of its specification settled against it.

Conventions of the embedding.

* A Go `string` that the package trims, splits, compares or appends to (token,
  user name, password, update target, paths, contents) is a Lean `String`; the
  functions of the Go standard library that the package calls on it
  (`strings.TrimSpace`, `strings.Split`, `filepath.Base`) are written out below
  after their documented behaviour, on the list of characters of the string.
* The description, which the package only tests for emptiness and hands to
  `encoding/json`, is kept as its bytes (`ByteString`): the encoder reads it as
  UTF-8 and writes U+FFFD for every byte that starts no well-formed encoding
  (`utf8.toValidText`, after `utf8.DecodeRuneInString`).
* A Go map is an association list with pairwise distinct keys; the nil map and
  the empty map are told apart where the code tells them apart (a write to a
  nil map panics).
* A Go `error` is an `Option GoError`, `none` being `nil`.
* The file system, the HTTP transport and the JSON decoder are parameters
  (`FileSystem`, `World`): the code is run against any stub of them.
-/

namespace strings

/-- Go `unicode.IsSpace`: the characters with the Unicode White_Space property. -/
def isSpace (c : Char) : Bool :=
  let n := c.toNat
  (0x09 ≤ n && n ≤ 0x0D) || n == 0x20 || n == 0x85 || n == 0xA0 || n == 0x1680 ||
  (0x2000 ≤ n && n ≤ 0x200A) || n == 0x2028 || n == 0x2029 || n == 0x202F ||
  n == 0x205F || n == 0x3000

/-- Leading white space removed. -/
def trimLeft (cs : List Char) : List Char :=
  cs.dropWhile isSpace

/-- Trailing white space removed. -/
def trimRight (cs : List Char) : List Char :=
  (cs.reverse.dropWhile isSpace).reverse

/-- Go `strings.TrimSpace`: the string without its leading and trailing white space. -/
def TrimSpace (s : String) : String :=
  ⟨trimRight (trimLeft s.data)⟩

/-- The pieces of `cs` between the occurrences of `sep`; one piece more than
there are occurrences, so the empty list gives one empty piece. -/
def splitChars (sep : Char) : List Char → List (List Char)
  | [] => [[]]
  | c :: cs =>
    if c = sep then [] :: splitChars sep cs
    else
      match splitChars sep cs with
      | [] => [[c]]
      | piece :: pieces => (c :: piece) :: pieces

/-- Go `strings.Split(s, sep)` for a separator of one character, the only use
the package makes of it (`":"`). -/
def Split (s : String) (sep : Char) : List String :=
  (splitChars sep s.data).map String.mk

end strings

namespace filepath

/-- Trailing path separators removed. -/
def stripTrailingSlashes (cs : List Char) : List Char :=
  (cs.reverse.dropWhile (fun c => c = '/')).reverse

/-- What follows the last path separator (everything when there is none). -/
def lastElement (cs : List Char) : List Char :=
  (cs.reverse.takeWhile (fun c => c ≠ '/')).reverse

/-- Go `filepath.Base` on a POSIX build: the last element of the path, after
the trailing slashes are removed; `"."` for the empty path and `"/"` for a
path of slashes only. -/
def Base (path : String) : String :=
  if path = "" then "."
  else
    let last := lastElement (stripTrailingSlashes path.data)
    if last = [] then "/" else ⟨last⟩

end filepath

/-- A Go string kept as its bytes (numbers below 256), for the strings that
`encoding/json` reads as UTF-8. -/
abbrev ByteString := List Nat

namespace utf8

/-- The rune `utf8.RuneError`, U+FFFD. -/
def RuneError : Nat := 0xFFFD

/-- Whether the byte is a continuation byte, `0x80` to `0xBF`. -/
def isCont (b : Nat) : Bool :=
  0x80 ≤ b && b ≤ 0xBF

/-- The rune at the front of the bytes and its width, when the bytes start with
a well-formed encoding (the ranges of Go's `utf8` package: no overlong form, no
surrogate, nothing above U+10FFFF). -/
def decodeValid : List Nat → Option (Nat × Nat)
  | [] => none
  | b0 :: rest =>
    if b0 < 0x80 then some (b0, 1)
    else if 0xC2 ≤ b0 ∧ b0 ≤ 0xDF then
      match rest with
      | b1 :: _ =>
        if isCont b1 then some ((b0 - 0xC0) * 64 + (b1 - 0x80), 2) else none
      | _ => none
    else if 0xE0 ≤ b0 ∧ b0 ≤ 0xEF then
      match rest with
      | b1 :: b2 :: _ =>
        if (if b0 = 0xE0 then 0xA0 else 0x80) ≤ b1 ∧ b1 ≤ (if b0 = 0xED then 0x9F else 0xBF)
            ∧ isCont b2 then
          some (((b0 - 0xE0) * 64 + (b1 - 0x80)) * 64 + (b2 - 0x80), 3)
        else none
      | _ => none
    else if 0xF0 ≤ b0 ∧ b0 ≤ 0xF4 then
      match rest with
      | b1 :: b2 :: b3 :: _ =>
        if (if b0 = 0xF0 then 0x90 else 0x80) ≤ b1 ∧ b1 ≤ (if b0 = 0xF4 then 0x8F else 0xBF)
            ∧ isCont b2 ∧ isCont b3 then
          some ((((b0 - 0xF0) * 64 + (b1 - 0x80)) * 64 + (b2 - 0x80)) * 64 + (b3 - 0x80), 4)
        else none
      | _ => none
    else none

/-- Go `utf8.DecodeRuneInString`: the rune at the front and its width; a byte
that starts no well-formed encoding gives `RuneError` and the width 1. -/
def DecodeRune (s : List Nat) : Nat × Nat :=
  match s with
  | [] => (RuneError, 0)
  | _ :: _ => (decodeValid s).getD (RuneError, 1)

/-- Go `utf8.AppendRune` for a rune that is a Unicode scalar value. -/
def EncodeRune (r : Nat) : List Nat :=
  if r < 0x80 then [r]
  else if r < 0x800 then [0xC0 + r / 64, 0x80 + r % 64]
  else if r < 0x10000 then [0xE0 + r / 4096, 0x80 + r / 64 % 64, 0x80 + r % 64]
  else [0xF0 + r / 262144, 0x80 + r / 4096 % 64, 0x80 + r / 64 % 64, 0x80 + r % 64]

/-- A piece of a string read as UTF-8: a rune, or a byte that starts no
well-formed encoding. -/
inductive Piece where
  | rune (r : Nat)
  | invalid (b : Nat)
  deriving DecidableEq, Repr

/-- The pieces of the bytes, read from the front as Go's loops over a string
do; `skip` bytes at the front belong to the rune just read. -/
def piecesFrom : Nat → List Nat → List Piece
  | _, [] => []
  | skip + 1, _ :: rest => piecesFrom skip rest
  | 0, b :: rest =>
    match decodeValid (b :: rest) with
    | some (r, width) => Piece.rune r :: piecesFrom (width - 1) rest
    | none => Piece.invalid b :: piecesFrom 0 rest

/-- The pieces of a string. -/
def pieces (s : List Nat) : List Piece :=
  piecesFrom 0 s

/-- Go `utf8.ValidString`: no byte of the string starts an ill-formed encoding. -/
def ValidString (s : List Nat) : Bool :=
  (pieces s).all (fun p => match p with | .rune _ => true | .invalid _ => false)

/-- The text a string is coerced to by `encoding/json`: each rune, and U+FFFD
for each byte that starts no well-formed encoding. -/
def toValidText (s : List Nat) : String :=
  ⟨(pieces s).map (fun p => match p with
    | .rune r => Char.ofNat r
    | .invalid _ => Char.ofNat RuneError)⟩

/-- The bytes of a text, the Go string `json.Unmarshal` stores for a JSON
string. -/
def encodeText (t : String) : List Nat :=
  t.data.flatMap (fun c => EncodeRune c.toNat)

/-- The bytes a piece stands for. -/
def Piece.bytes : Piece → List Nat
  | .rune r => EncodeRune r
  | .invalid b => [b]

end utf8

namespace gist

set_option linter.dupNamespace false

/-- The constant `GITHUB_API_URL`. -/
def GITHUB_API_URL : String := "https://api.github.com/gists"

/-- The struct `GistFile`. -/
structure GistFile where
  Content : String
  deriving DecidableEq, Repr

/-- The type `GistFiles`, `map[string]GistFile`: `none` is the nil map. -/
abbrev GistFiles := Option (List (String × GistFile))

/-- The struct `options`. -/
structure options where
  anonymous : Bool
  update : String
  description : ByteString
  public : Bool
  username : String
  password : String
  files : GistFiles
  deriving DecidableEq, Repr

/-- The zero value `options{}` that `New` starts from. -/
def options.zero : options :=
  { anonymous := false, update := "", description := [], public := false,
    username := "", password := "", files := none }

/-- The type `Option`, `func(*options)`: an update of the configuration. -/
abbrev ConfigOption := options → options

/-- The option `GistId`. -/
def GistId (gistId : String) : ConfigOption :=
  fun o => { o with update := gistId }

/-- The option `Anonymous`. -/
def Anonymous (anonymous : Bool) : ConfigOption :=
  fun o => { o with anonymous := anonymous }

/-- The option `Description`. -/
def Description (description : ByteString) : ConfigOption :=
  fun o => { o with description := description }

/-- The option `Public`. -/
def Public (public : Bool) : ConfigOption :=
  fun o => { o with public := public }

/-- The option `Credentials`: the token is trimmed and split on `":"` when the
option is built; applied, it returns without a write unless there are exactly
two parts, both non-empty. -/
def Credentials (token : String) : ConfigOption :=
  let parts := strings.Split (strings.TrimSpace token) ':'
  fun o =>
    if parts.length ≠ 2 ∨ parts.getD 0 "" = "" ∨ parts.getD 1 "" = "" then o
    else { o with anonymous := false, username := parts.getD 0 "", password := parts.getD 1 "" }


/-! ## Maps -/

/-- The write `m[k] = v` on a map that is not nil: the value of an existing key
is replaced, a new key is added. -/
def mapSet {V : Type} : List (String × V) → String → V → List (String × V)
  | [], k, v => [(k, v)]
  | (k', v') :: m, k, v =>
    if k' = k then (k, v) :: m else (k', v') :: mapSet m k v

/-- The read `m[k]`. -/
def mapGet {V : Type} : List (String × V) → String → Option V
  | [], _ => none
  | (k', v') :: m, k => if k' = k then some v' else mapGet m k

/-- The keys of a map. -/
def mapKeys {V : Type} (m : List (String × V)) : List String :=
  m.map Prod.fst

/-- What a call gives: it returns, or it panics. -/
inductive Outcome (α : Type) where
  | returned (a : α)
  | panicked (msg : String)
  deriving DecidableEq, Repr

/-- The write `m[k] = v` on a map that may be nil: Go panics on the nil map. -/
def mapAssign {V : Type} (m : Option (List (String × V))) (k : String) (v : V) :
    Outcome (Option (List (String × V))) :=
  match m with
  | none => .panicked "assignment to entry in nil map"
  | some entries => .returned (some (mapSet entries k v))

/-- Go `len(m)`, zero on the nil map. -/
def mapLen {V : Type} (m : Option (List (String × V))) : Nat :=
  match m with
  | none => 0
  | some entries => entries.length

/-! ## Errors -/

/-- An error value that is not an `Errors`: made by `fmt.Errorf`, or handed
over by the standard library (file system, transport, decoder). -/
inductive PlainError where
  | errorf (text : String)
  | external (text : String)
  deriving DecidableEq, Repr

/-- The struct `Errors`; the values of its map are the errors of single files
or fields. -/
structure Errors where
  Message : String
  Errors : Option (List (String × PlainError))
  deriving DecidableEq, Repr

/-- A non-nil Go `error`. -/
inductive GoError where
  | plain (e : PlainError)
  | errors (e : Errors)
  deriving DecidableEq, Repr

/-- The function `newErrors`: the message joined with blanks, and an empty map
that is not nil. -/
def newErrors (message : List String) : Errors :=
  { Message := " ".intercalate message, Errors := some [] }

/-- The literal `Errors{}` of `Send`: its map is nil. -/
def zeroErrors : Errors :=
  { Message := "", Errors := none }

/-! ## Files -/

/-- The file system `ioutil.ReadFile` reads from: the content of a path, or
the error of the read. -/
structure FileSystem where
  ReadFile : String → Except PlainError String

/-- The two maps the loop of `Files` fills. -/
structure FilesState where
  errors : List (String × PlainError)
  gistFiles : List (String × GistFile)

/-- One turn of the loop of `Files`. -/
def Files.step (fs : FileSystem) (st : FilesState) (filename : String) : FilesState :=
  match fs.ReadFile filename with
  | .error err => { st with errors := mapSet st.errors filename err }
  | .ok content =>
    let name := filepath.Base filename
    { st with gistFiles := mapSet st.gistFiles name ⟨content⟩ }

/-- The loop of `Files`, from `newErrors()` and `GistFiles{}`, both empty and
not nil. -/
def Files.loop (fs : FileSystem) (files : List String) : FilesState :=
  files.foldl (Files.step fs) { errors := [], gistFiles := [] }

/-- The function `Files`. The local `errors` is set to nil when its map is
empty and is not used after that: the error returned is the constant `nil`. -/
def Files (fs : FileSystem) (files : List String) : ConfigOption × Option GoError :=
  let st := Files.loop fs files
  let errors : Errors := { newErrors [] with Errors := some st.errors }
  let _errors : Option Errors := if mapLen errors.Errors = 0 then none else some errors
  (fun o => { o with files := some st.gistFiles }, none)

/-- The function `MustFiles`: `log.Fatal` ends the process when `Files` gives
an error. -/
def MustFiles (fs : FileSystem) (files : List String) : Except GoError ConfigOption :=
  match Files fs files with
  | (_, some err) => .error err
  | (opt, none) => .ok opt

/-! ## New -/

/-- The struct `Gist`. -/
structure Gist where
  Description : ByteString
  Public : Bool
  GistFile : GistFiles
  config : options
  deriving DecidableEq, Repr

/-- The function `New`: the options are applied in order to the zero
configuration. -/
def New (config : List ConfigOption) : Gist × Option GoError :=
  let opt := config.foldl (fun opt o => o opt) options.zero
  ({ config := opt, Description := opt.description, Public := opt.public,
     GistFile := opt.files }, none)

/-! ## JSON documents -/

/-- A JSON document, which is also what `json.Unmarshal` stores in an
`interface{}`: nil, a bool, a float64 (kept by the text `%v` prints for it), a
string, a `[]interface{}` or a `map[string]interface{}`. -/
inductive JVal where
  | null
  | bool (b : Bool)
  | num (text : String)
  | str (s : String)
  | arr (items : List JVal)
  | obj (fields : List (String × JVal))
  deriving Repr

/-- The name the Go runtime prints for the dynamic type of a decoded value. -/
def JVal.typeName : JVal → String
  | .null => "nil"
  | .bool _ => "bool"
  | .num _ => "float64"
  | .str _ => "string"
  | .arr _ => "[]interface \x7b\x7d"
  | .obj _ => "map[string]interface \x7b\x7d"

/-- The member `name` of a JSON object, when the document is an object that
has it. -/
def JVal.field (doc : JVal) (name : String) : Option JVal :=
  match doc with
  | .obj fields => mapGet fields name
  | _ => none

/-- The encoding of a `GistFiles`: `null` for the nil map, else an object with
one member `{"content": ...}` for each file. -/
def marshalFiles : GistFiles → JVal
  | none => .null
  | some m => .obj (m.map (fun e => (e.1, JVal.obj [("content", JVal.str e.2.Content)])))

/-- The document `json.Marshal(gist)` encodes, after the tags of the struct
`Gist`: `description` with `omitempty` (left out when the Go string is empty,
else the string coerced to valid UTF-8), `public`, `files`, and no member for
`config`. Encoding a struct of strings, a bool and a map of strings does not
fail. -/
def json.Marshal (gist : Gist) : JVal :=
  .obj ((if gist.Description = [] then []
      else [("description", JVal.str (utf8.toValidText gist.Description))]) ++
    [("public", JVal.bool gist.Public), ("files", marshalFiles gist.GistFile)])

/-! ## Response -/

/-- The struct `User`. -/
structure User where
  Login : String
  Id : Int
  NodeId : String
  AvatarUrl : String
  GravatarId : String
  Url : String
  HtmlUrl : String
  FollowersUrl : String
  FollowingUrl : String
  GistsUrl : String
  StarredUrl : String
  SubscriptionsUrl : String
  OrganizationsUrl : String
  ReposUrl : String
  EventsUrl : String
  ReceivedEventsUrl : String
  Type_ : String
  SiteAdmin : Bool

/-- The struct `Response`. -/
structure Response where
  Url : String
  ForksUrl : String
  CommitsUrl : String
  Id : String
  NodeId : String
  GitPullUrl : String
  GitPushUrl : String
  HtmlUrl : String
  Files : Option (List (String × JVal))
  Public : Bool
  CreatedAt : String
  UpdatedAt : String
  Description : String
  Comments : Int
  User : User
  CommentsUrl : String
  Owner : Option (List (String × JVal))
  Truncated : Bool
  Forks : Option (List JVal)
  History : Option (List JVal)

/-- The zero value of `User`. -/
def User.zero : User :=
  { Login := "", Id := 0, NodeId := "", AvatarUrl := "", GravatarId := "", Url := "",
    HtmlUrl := "", FollowersUrl := "", FollowingUrl := "", GistsUrl := "", StarredUrl := "",
    SubscriptionsUrl := "", OrganizationsUrl := "", ReposUrl := "", EventsUrl := "",
    ReceivedEventsUrl := "", Type_ := "", SiteAdmin := false }

/-- The zero value of `Response`, the named result `response` of `Send` until
the last decoding. -/
def Response.zero : Response :=
  { Url := "", ForksUrl := "", CommitsUrl := "", Id := "", NodeId := "", GitPullUrl := "",
    GitPushUrl := "", HtmlUrl := "", Files := none, Public := false, CreatedAt := "",
    UpdatedAt := "", Description := "", Comments := 0, User := User.zero, CommentsUrl := "",
    Owner := none, Truncated := false, Forks := none, History := none }

/-! ## Send -/

/-- The request `Send` builds: method, URL, body (the encoded payload), the
headers it sets, and the pair given to `SetBasicAuth` when it is called. -/
structure Request where
  Method : String
  URL : String
  Body : JVal
  Header : List (String × String)
  BasicAuth : Option (String × String)

/-- What `client.Do` hands back: the status code, what `ioutil.ReadAll` gives
on the body, and what `Body.Close` returns. -/
structure HTTPResponse where
  StatusCode : Nat
  ReadAll : Except PlainError String
  Close : Option PlainError

/-- The standard library `Send` runs against: `http.NewRequest` (its error for
a method and a URL), `client.Do`, `json.Unmarshal` into a
`map[string]interface{}` and into a `Response` (the value it fills and its
error), and the text `%v` prints for a decoded value. -/
structure World where
  NewRequest : String → String → Option PlainError
  Do : Request → Except PlainError HTTPResponse
  UnmarshalMap : String → Except PlainError (List (String × JVal))
  UnmarshalResponse : String → Response × Option PlainError
  Sprint : JVal → String

/-- The inner loop of `Send` on one map of messages: each entry is written to
`errs.Errors`. -/
def Send.reasons (w : World) : Errors → List (String × JVal) → Outcome Errors
  | errs, [] => .returned errs
  | errs, (reason, message) :: rest =>
    match mapAssign errs.Errors reason (PlainError.errorf (w.Sprint message)) with
    | .panicked msg => .panicked msg
    | .returned m => Send.reasons w { errs with Errors := m } rest

/-- The outer loop of `Send` on the list under `errors`: each element is
asserted to be a `map[string]interface{}`, which panics when it is not, with
the name of the type it has. -/
def Send.messages (w : World) : Errors → List JVal → Outcome Errors
  | errs, [] => .returned errs
  | errs, .obj fields :: rest =>
    match Send.reasons w errs fields with
    | .panicked msg => .panicked msg
    | .returned errs' => Send.messages w errs' rest
  | _, messages :: _ =>
    .panicked ("interface conversion: interface \x7b\x7d is " ++ messages.typeName ++
      ", not map[string]interface \x7b\x7d")

/-- The part of `Send` after the `defer`: the body is read and decoded, probed
for `errors`, and decoded as a `Response`. -/
def Send.body (w : World) (resp : HTTPResponse) (response : Response) :
    Outcome (Response × Option GoError) :=
  match resp.ReadAll with
  | .error err => .returned (response, some (.plain err))
  | .ok body =>
    match w.UnmarshalMap body with
    | .error err => .returned (response, some (.plain err))
    | .ok decoded =>
      match mapGet decoded "errors" with
      | some errors =>
        let errs := zeroErrors
        match errors with
        | .arr list =>
          match Send.messages w errs list with
          | .panicked msg => .panicked msg
          | .returned errs' => .returned (response, some (.errors errs'))
        | _ =>
          .panicked ("interface conversion: interface \x7b\x7d is " ++ errors.typeName ++
            ", not []interface \x7b\x7d")
      | none =>
        match w.UnmarshalResponse body with
        | (response', some err) => .returned (response', some (.plain err))
        | (response', none) => .returned (response', none)

/-- The deferred function of `Send`: it runs after the `return` has set the
named results, and assigns what `resp.Body.Close()` returns to the named result
`err`. A panic goes on after it. -/
def Send.deferred (resp : HTTPResponse) :
    Outcome (Response × Option GoError) → Outcome (Response × Option GoError)
  | .panicked msg => .panicked msg
  | .returned (response, _) => .returned (response, resp.Close.map GoError.plain)

/-- The URL `Send` posts to. -/
def Send.apiUrl (opts : options) : String :=
  if opts.update ≠ "" then GITHUB_API_URL ++ "/" ++ opts.update else GITHUB_API_URL

/-- The request `Send` builds for a configuration and an encoded payload. -/
def Send.request (opts : options) (pfile : JVal) : Request :=
  { Method := "POST", URL := Send.apiUrl opts, Body := pfile,
    Header := mapSet (mapSet [] "Content-Type" "application/json") "Accept" "application/json",
    BasicAuth := if opts.username ≠ "" then some (opts.username, opts.password) else none }

/-- The method `Send`. The result is what the call gives, and the requests
handed to `client.Do`, in order. -/
def Send (w : World) (gist : Gist) : Outcome (Response × Option GoError) × List Request :=
  let opts := gist.config
  let response := Response.zero
  if opts.username = "" ∧ opts.anonymous = false then
    (.returned (response,
      some (.plain (.errorf "no credentials provided and anonymous is false"))), [])
  else
    let pfile := json.Marshal gist
    let req := Send.request opts pfile
    match w.NewRequest req.Method req.URL with
    | some err => (.returned (response, some (.plain err)), [])
    | none =>
      match w.Do req with
      | .error err => (.returned (response, some (.plain err)), [req])
      | .ok resp => (Send.deferred resp (Send.body w resp response), [req])

end gist

namespace gist

/-! ## Words of the specification -/

/-- Whether the path can be read. -/
def FileSystem.readable (fs : FileSystem) (path : String) : Bool :=
  match fs.ReadFile path with
  | .ok _ => true
  | .error _ => false

/-- The read `m[k]` on a map that may be nil. -/
def mapRead {V : Type} (m : Option (List (String × V))) (k : String) : Option V :=
  match m with
  | none => none
  | some entries => mapGet entries k

/-- The failure set an error of `Files` carries: the map of an `Errors`, and
nothing for `nil`. -/
def reportedFailures : Option GoError → List (String × PlainError)
  | some (.errors e) => e.Errors.getD []
  | _ => []

/-- The description `json.Unmarshal` reads back from a payload: the bytes of
the member `description` when it is a string, and the empty string when the
member is absent. -/
def unmarshalDescription (doc : JVal) : ByteString :=
  match doc.field "description" with
  | some (.str text) => utf8.encodeText text
  | _ => []

/-- A call of one of the option constructors of the package, the only way to
make an option outside of it (the type `options` is not exported). -/
inductive OptionCall where
  | gistId (gistId : String)
  | anonymous (anonymous : Bool)
  | description (description : ByteString)
  | isPublic (isPublic : Bool)
  | credentials (token : String)
  | files (fs : FileSystem) (files : List String)

/-- The option a call makes. -/
def OptionCall.option : OptionCall → ConfigOption
  | .gistId id => GistId id
  | .anonymous b => Anonymous b
  | .description d => Description d
  | .isPublic b => Public b
  | .credentials token => Credentials token
  | .files fs paths => (Files fs paths).1

/-- The user name and password of a well-formed token: the trimmed token splits
on the colon into exactly two parts, both non-empty. -/
def wellFormedCredentials (token : String) : Option (String × String) :=
  match strings.Split (strings.TrimSpace token) ':' with
  | [u, p] => if u ≠ "" ∧ p ≠ "" then some (u, p) else none
  | _ => none

/-- What a call writes to the field update target. -/
def writesUpdate : OptionCall → Option String
  | .gistId id => some id
  | _ => none

/-- What a call writes to the field anonymous. -/
def writesAnonymous : OptionCall → Option Bool
  | .anonymous b => some b
  | .credentials token => (wellFormedCredentials token).map (fun _ => false)
  | _ => none

/-- What a call writes to the field description. -/
def writesDescription : OptionCall → Option ByteString
  | .description d => some d
  | _ => none

/-- What a call writes to the field public. -/
def writesPublic : OptionCall → Option Bool
  | .isPublic b => some b
  | _ => none

/-- What a call writes to the field username. -/
def writesUsername : OptionCall → Option String
  | .credentials token => (wellFormedCredentials token).map Prod.fst
  | _ => none

/-- What a call writes to the field password. -/
def writesPassword : OptionCall → Option String
  | .credentials token => (wellFormedCredentials token).map Prod.snd
  | _ => none

/-- What a call writes to the field files: the records of the paths read. -/
def writesFiles : OptionCall → Option GistFiles
  | .files fs paths => some (some (Files.loop fs paths).gistFiles)
  | _ => none

/-- The value written by the last call of the list that writes the field, and
the zero value when no call writes it. -/
def lastWrite {α : Type} (writes : OptionCall → Option α) (zero : α)
    (calls : List OptionCall) : α :=
  (calls.filterMap writes).getLast?.getD zero

/-! ## Concrete inputs -/

/-- The configuration with every field set that C5 is tried on. -/
def filledOptions : options :=
  { anonymous := true, update := "id", description := utf8.encodeText "d", public := true,
    username := "me", password := "pw", files := some [] }

/-- A file system in which `missing.txt` cannot be read and every other path
holds a text made from the path. -/
def stubFS : FileSystem :=
  { ReadFile := fun path =>
      if path = "missing.txt" then
        .error (.external "open missing.txt: no such file or directory")
      else .ok ("content of " ++ path) }

/-- The body `{"errors":[{"foo.txt":"something bad"}]}` of a rejection. -/
def errorsBody : String :=
  "\x7b\"errors\":[\x7b\"foo.txt\":\"something bad\"\x7d]\x7d"

/-- The body of a success, with its `html_url`. -/
def successBody : String :=
  "\x7b\"html_url\":\"https://snip.example/abc123\"\x7d"

/-- The text `%v` prints for a string, a bool, a number and nil (the stubs hold
no decoded value of another kind). -/
def stubSprint : JVal → String
  | .str s => s
  | .num text => text
  | .bool true => "true"
  | .bool false => "false"
  | _ => "<nil>"

/-- A stub of the decoder into `map[string]interface{}`, for the two bodies. -/
def stubUnmarshalMap (body : String) : Except PlainError (List (String × JVal)) :=
  if body = errorsBody then
    .ok [("errors", .arr [.obj [("foo.txt", .str "something bad")]])]
  else if body = successBody then
    .ok [("html_url", .str "https://snip.example/abc123")]
  else .error (.external "invalid character")

/-- A stub of the decoder into `Response`, for the body of a success. -/
def stubUnmarshalResponse (body : String) : Response × Option PlainError :=
  if body = successBody then
    ({ Response.zero with HtmlUrl := "https://snip.example/abc123" }, none)
  else (Response.zero, none)

/-- A stub of the service that answers every request with the given status code
and body. -/
def stubWorld (status : Nat) (body : String) : World :=
  { NewRequest := fun _ _ => none,
    Do := fun _ => .ok { StatusCode := status, ReadAll := .ok body, Close := none },
    UnmarshalMap := stubUnmarshalMap,
    UnmarshalResponse := stubUnmarshalResponse,
    Sprint := stubSprint }

/-- An anonymous public gist of one file. -/
def anonymousGist : Gist :=
  (New [Anonymous true, Public true, (Files stubFS ["foo.txt"]).1]).1

/-- An anonymous gist that updates `abc123`, with a description. -/
def updateGist : Gist :=
  (New [Anonymous true, Public true, (Files stubFS ["foo.txt"]).1, GistId "abc123",
    Description (utf8.encodeText "notes")]).1

/-- The calls for an anonymous gist without a description. -/
def plainCalls : List OptionCall :=
  [.anonymous true, .isPublic true]

/-- The calls for an anonymous gist with the description `notes`. -/
def notesCalls : List OptionCall :=
  [.anonymous true, .gistId "abc123", .description (utf8.encodeText "notes")]

/-- The calls for an anonymous gist whose description is the three bytes `a`,
`0xFF`, `b`, which are not UTF-8. -/
def invalidDescriptionCalls : List OptionCall :=
  [.anonymous true, .description [0x61, 0xFF, 0x62]]

/-- A gist that is not anonymous and has no credentials. -/
def noCredentialsGist : Gist :=
  (New [Public true, (Files stubFS ["foo.txt"]).1, GistId "abc123",
    Credentials "nocolon"]).1

end gist

/-! # Properties -/

namespace utf8

theorem toNat_ofNat_of_valid (r : Nat) (h : r.isValidChar) : (Char.ofNat r).toNat = r := by
  unfold Char.ofNat
  rw [dif_pos h]
  rfl

theorem isCont_iff (b : Nat) : isCont b = true ↔ 0x80 ≤ b ∧ b ≤ 0xBF := by
  simp [isCont]

/-- A well-formed encoding at the front of the bytes is the encoding of its
rune, and the rune is a Unicode scalar value. -/
theorem decodeValid_spec (s : List Nat) (r width : Nat)
    (h : decodeValid s = some (r, width)) :
    1 ≤ width ∧ EncodeRune r = s.take width ∧ r.isValidChar := by
  match s with
  | [] => simp [decodeValid] at h
  | b0 :: rest =>
    unfold decodeValid at h
    simp only at h
    by_cases h1 : b0 < 0x80
    · rw [if_pos h1] at h
      simp only [Option.some.injEq, Prod.mk.injEq] at h
      obtain ⟨rfl, rfl⟩ := h
      refine ⟨le_refl _, ?_, ?_⟩
      · simp [EncodeRune, h1]
      · left; omega
    · rw [if_neg h1] at h
      by_cases h2 : 0xC2 ≤ b0 ∧ b0 ≤ 0xDF
      · rw [if_pos h2] at h
        match rest with
        | [] => simp at h
        | b1 :: tail =>
          simp only at h
          by_cases hc : isCont b1 = true
          · rw [if_pos hc] at h
            simp only [Option.some.injEq, Prod.mk.injEq] at h
            obtain ⟨rfl, rfl⟩ := h
            rw [isCont_iff] at hc
            have e1 : ¬ ((b0 - 0xC0) * 64 + (b1 - 0x80) < 0x80) := by omega
            have e2 : (b0 - 0xC0) * 64 + (b1 - 0x80) < 0x800 := by omega
            refine ⟨by omega, ?_, ?_⟩
            · rw [EncodeRune, if_neg e1, if_pos e2]
              simp only [List.take_succ_cons, List.take_zero, List.cons.injEq, and_true]
              constructor <;> omega
            · left; omega
          · rw [if_neg hc] at h
            simp at h
      · rw [if_neg h2] at h
        by_cases h3 : 0xE0 ≤ b0 ∧ b0 ≤ 0xEF
        · rw [if_pos h3] at h
          match rest with
          | [] => simp at h
          | [_] => simp at h
          | b1 :: b2 :: tail =>
            by_cases hc : (if b0 = 0xE0 then 0xA0 else 0x80) ≤ b1
                ∧ b1 ≤ (if b0 = 0xED then 0x9F else 0xBF) ∧ isCont b2 = true
            · simp only [if_pos hc] at h
              obtain ⟨hlo, hhi, hc2⟩ := hc
              simp only [Option.some.injEq, Prod.mk.injEq] at h
              obtain ⟨rfl, rfl⟩ := h
              rw [isCont_iff] at hc2
              have hlo' : 0x80 ≤ b1 ∧ (b0 = 0xE0 → 0xA0 ≤ b1) := by
                split at hlo <;> omega
              have hhi' : b1 ≤ 0xBF ∧ (b0 = 0xED → b1 ≤ 0x9F) := by
                split at hhi <;> omega
              have e1 : ¬ (((b0 - 0xE0) * 64 + (b1 - 0x80)) * 64 + (b2 - 0x80) < 0x80) := by
                omega
              have e2 : ¬ (((b0 - 0xE0) * 64 + (b1 - 0x80)) * 64 + (b2 - 0x80) < 0x800) := by
                omega
              have e3 : ((b0 - 0xE0) * 64 + (b1 - 0x80)) * 64 + (b2 - 0x80) < 0x10000 := by
                omega
              refine ⟨by omega, ?_, ?_⟩
              · rw [EncodeRune, if_neg e1, if_neg e2, if_pos e3]
                simp only [List.take_succ_cons, List.take_zero, List.cons.injEq, and_true]
                refine ⟨?_, ?_, ?_⟩ <;> omega
              · unfold Nat.isValidChar
                omega
            · simp only [if_neg hc] at h
              simp at h
        · rw [if_neg h3] at h
          by_cases h4 : 0xF0 ≤ b0 ∧ b0 ≤ 0xF4
          · rw [if_pos h4] at h
            match rest with
            | [] => simp at h
            | [_] => simp at h
            | [_, _] => simp at h
            | b1 :: b2 :: b3 :: tail =>
              by_cases hc : (if b0 = 0xF0 then 0x90 else 0x80) ≤ b1
                  ∧ b1 ≤ (if b0 = 0xF4 then 0x8F else 0xBF) ∧ isCont b2 = true
                  ∧ isCont b3 = true
              · simp only [if_pos hc] at h
                obtain ⟨hlo, hhi, hc2, hc3⟩ := hc
                simp only [Option.some.injEq, Prod.mk.injEq] at h
                obtain ⟨rfl, rfl⟩ := h
                rw [isCont_iff] at hc2 hc3
                have hlo' : 0x80 ≤ b1 ∧ (b0 = 0xF0 → 0x90 ≤ b1) := by
                  split at hlo <;> omega
                have hhi' : b1 ≤ 0xBF ∧ (b0 = 0xF4 → b1 ≤ 0x8F) := by
                  split at hhi <;> omega
                have e3 : ¬ ((((b0 - 0xF0) * 64 + (b1 - 0x80)) * 64 + (b2 - 0x80)) * 64
                    + (b3 - 0x80) < 0x10000) := by
                  omega
                have e1 : ¬ ((((b0 - 0xF0) * 64 + (b1 - 0x80)) * 64 + (b2 - 0x80)) * 64
                    + (b3 - 0x80) < 0x80) := by
                  omega
                have e2 : ¬ ((((b0 - 0xF0) * 64 + (b1 - 0x80)) * 64 + (b2 - 0x80)) * 64
                    + (b3 - 0x80) < 0x800) := by
                  omega
                refine ⟨by omega, ?_, ?_⟩
                · rw [EncodeRune, if_neg e1, if_neg e2, if_neg e3]
                  simp only [List.take_succ_cons, List.take_zero, List.cons.injEq, and_true]
                  refine ⟨?_, ?_, ?_, ?_⟩ <;> omega
                · unfold Nat.isValidChar
                  omega
              · simp only [if_neg hc] at h
                simp at h
          · rw [if_neg h4] at h
            simp at h

/-- The pieces of a string stand for its bytes. -/
theorem piecesFrom_bytes (s : List Nat) :
    ∀ skip : Nat, (piecesFrom skip s).flatMap Piece.bytes = s.drop skip := by
  induction s with
  | nil => intro skip; simp [piecesFrom]
  | cons b rest ih =>
    intro skip
    cases skip with
    | succ k => simp [piecesFrom, ih]
    | zero =>
      cases hd : decodeValid (b :: rest) with
      | none => simp [piecesFrom, hd, ih, Piece.bytes]
      | some rw =>
        obtain ⟨r, width⟩ := rw
        obtain ⟨hw, henc, _⟩ := decodeValid_spec _ _ _ hd
        simp only [piecesFrom, hd, List.flatMap_cons, Piece.bytes, ih, henc, List.drop_zero]
        obtain ⟨k, rfl⟩ : ∃ k, width = k + 1 := ⟨width - 1, by omega⟩
        simp

/-- The runes among the pieces of a string are Unicode scalar values. -/
theorem piecesFrom_valid (s : List Nat) :
    ∀ skip r, Piece.rune r ∈ piecesFrom skip s → r.isValidChar := by
  induction s with
  | nil => intro skip r h; simp [piecesFrom] at h
  | cons b rest ih =>
    intro skip r h
    cases skip with
    | succ k =>
      simp only [piecesFrom] at h
      exact ih k r h
    | zero =>
      cases hd : decodeValid (b :: rest) with
      | none =>
        simp only [piecesFrom, hd, List.mem_cons] at h
        rcases h with h | h
        · cases h
        · exact ih 0 r h
      | some rw =>
        obtain ⟨r', width⟩ := rw
        simp only [piecesFrom, hd, List.mem_cons] at h
        rcases h with h | h
        · cases h
          exact (decodeValid_spec _ _ _ hd).2.2
        · exact ih _ r h

/-- A string that is valid UTF-8 is the encoding of the text it is coerced
to. -/
theorem encodeText_toValidText (s : List Nat) (h : ValidString s = true) :
    encodeText (toValidText s) = s := by
  have hb := piecesFrom_bytes s 0
  have hv := piecesFrom_valid s 0
  unfold ValidString pieces at h
  unfold encodeText toValidText pieces
  simp only [List.drop_zero] at hb
  rw [List.all_eq_true] at h
  conv_rhs => rw [← hb]
  generalize piecesFrom 0 s = l at h hv
  induction l with
  | nil => rfl
  | cons p l ih =>
    have hp := h p (List.mem_cons_self _ _)
    have ih' := ih (fun q hq => h q (List.mem_cons_of_mem _ hq))
      (fun r hr => hv r (List.mem_cons_of_mem _ hr))
    cases p with
    | invalid b => simp at hp
    | rune r =>
      have hr := hv r (List.mem_cons_self _ _)
      simp only [List.map_cons, List.flatMap_cons, Piece.bytes, toNat_ofNat_of_valid r hr]
      simp only [List.flatMap_cons] at ih' ⊢
      rw [ih']

end utf8

namespace strings

theorem dropWhile_append_of_all (q : Char → Bool) (l x : List Char)
    (h : ∀ c ∈ l, q c = true) : (l ++ x).dropWhile q = x.dropWhile q := by
  induction l with
  | nil => rfl
  | cons c cs ih =>
    have hc : q c = true := h c (List.mem_cons_self _ _)
    have hcs : ∀ d ∈ cs, q d = true := fun d hd => h d (List.mem_cons_of_mem _ hd)
    simp [List.dropWhile_cons, hc, ih hcs]

theorem dropWhile_fixed_append (q : Char → Bool) (a b : List Char) (ha : a ≠ [])
    (h : a.dropWhile q = a) : (a ++ b).dropWhile q = a ++ b := by
  cases a with
  | nil => exact absurd rfl ha
  | cons c cs =>
    have hc : q c = false := by
      by_contra hq
      have hq' : q c = true := by simpa using hq
      have hlen := (List.dropWhile_sublist (l := cs) q).length_le
      rw [List.dropWhile_cons, if_pos hq'] at h
      rw [h] at hlen
      simp at hlen
    simp [List.dropWhile_cons, hc]

theorem splitChars_of_not_mem (sep : Char) (cs : List Char) (h : sep ∉ cs) :
    splitChars sep cs = [cs] := by
  induction cs with
  | nil => rfl
  | cons c cs ih =>
    have hc : c ≠ sep := fun e => h (e ▸ List.mem_cons_self _ _)
    have hcs : sep ∉ cs := fun m => h (List.mem_cons_of_mem _ m)
    simp [splitChars, hc, ih hcs]

theorem splitChars_append_sep (sep : Char) (a b : List Char) (h : sep ∉ a) :
    splitChars sep (a ++ sep :: b) = a :: splitChars sep b := by
  induction a with
  | nil => simp [splitChars]
  | cons c cs ih =>
    have hc : c ≠ sep := fun e => h (e ▸ List.mem_cons_self _ _)
    have hcs : sep ∉ cs := fun m => h (List.mem_cons_of_mem _ m)
    simp [splitChars, hc, ih hcs]

/-- The number of pieces is one more than the number of separators. -/
theorem splitChars_length (sep : Char) (cs : List Char) :
    (splitChars sep cs).length = cs.count sep + 1 := by
  induction cs with
  | nil => rfl
  | cons c cs ih =>
    by_cases hc : c = sep
    · subst hc
      simp [splitChars, ih]
    · have hne : (c == sep) = false := by simpa using hc
      cases hs : splitChars sep cs with
      | nil => rw [hs] at ih; simp at ih
      | cons piece pieces =>
        rw [hs] at ih
        simp [splitChars, hc, hs, List.count_cons, hne] at ih ⊢
        omega

/-- A token made of white space, a user name, a colon, a password and white
space is trimmed to the middle and split in two. -/
theorem Split_TrimSpace_token (l u p r : String) (hu : u ≠ "") (hp : p ≠ "")
    (huc : ':' ∉ u.data) (hpc : ':' ∉ p.data)
    (hul : trimLeft u.data = u.data) (hpr : trimRight p.data = p.data)
    (hl : ∀ c ∈ l.data, isSpace c = true) (hr : ∀ c ∈ r.data, isSpace c = true) :
    Split (TrimSpace (l ++ u ++ ":" ++ p ++ r)) ':' = [u, p] := by
  have hu' : u.data ≠ [] := fun e => hu (String.ext e)
  have hp' : p.data ≠ [] := fun e => hp (String.ext e)
  have hdata : (l ++ u ++ ":" ++ p ++ r).data
      = l.data ++ (u.data ++ (':' :: (p.data ++ r.data))) := by
    simp [String.data_append]
  have hleft : trimLeft (l ++ u ++ ":" ++ p ++ r).data
      = u.data ++ (':' :: (p.data ++ r.data)) := by
    rw [hdata]
    unfold trimLeft
    rw [dropWhile_append_of_all isSpace _ _ hl]
    exact dropWhile_fixed_append isSpace _ _ hu' hul
  have hpr' : p.data.reverse.dropWhile isSpace = p.data.reverse := by
    have := congrArg List.reverse hpr
    simpa [trimRight] using this
  have hright : trimRight (u.data ++ (':' :: (p.data ++ r.data)))
      = u.data ++ (':' :: p.data) := by
    unfold trimRight
    have hrev : (u.data ++ (':' :: (p.data ++ r.data))).reverse
        = r.data.reverse ++ (p.data.reverse ++ (':' :: u.data.reverse)) := by
      simp
    rw [hrev, dropWhile_append_of_all isSpace _ _ (by simpa using hr),
      dropWhile_fixed_append isSpace _ _ (by simpa using hp') hpr']
    simp
  unfold Split TrimSpace
  simp only [hleft, hright]
  rw [splitChars_append_sep _ _ _ huc, splitChars_of_not_mem _ _ hpc]
  rfl

end strings

namespace gist

/-! ## Credentials -/

/-- C4 (as amended): for every user name `u` and password `p`, both non-empty
and without a colon, `u` not starting and `p` not ending with white space, and
every starting configuration, the option `Credentials` on the token `u:p` with
any white space around it gives the configuration with username `u`, password
`p` and anonymous false, every other field as it was. -/
theorem Credentials_sets_username_password (o : options) (l u p r : String)
    (hu : u ≠ "") (hp : p ≠ "") (huc : ':' ∉ u.data) (hpc : ':' ∉ p.data)
    (hul : strings.trimLeft u.data = u.data) (hpr : strings.trimRight p.data = p.data)
    (hl : ∀ c ∈ l.data, strings.isSpace c = true)
    (hr : ∀ c ∈ r.data, strings.isSpace c = true) :
    Credentials (l ++ u ++ ":" ++ p ++ r) o
      = { anonymous := false, update := o.update, description := o.description,
          public := o.public, username := u, password := p, files := o.files } := by
  unfold Credentials
  simp only [strings.Split_TrimSpace_token l u p r hu hp huc hpc hul hpr hl hr]
  simp [hu, hp]

/-- The amended C4 at the token `" u:p\n"` on the zero configuration. -/
theorem Credentials_sets_username_password_witness :
    Credentials (" " ++ "u" ++ ":" ++ "p" ++ "\n") options.zero
      = { anonymous := false, update := "", description := [], public := false,
          username := "u", password := "p", files := none } :=
  Credentials_sets_username_password options.zero " " "u" "p" "\n"
    (by decide) (by decide) (by decide) (by decide) (by decide) (by decide)
    (by decide) (by decide)

/-- C4 as stated fails: the user name `a:b` and the password `c` are not empty,
and `Credentials` on `a:b:c` leaves the user name of the zero configuration
empty (three parts); the user name `" a"` is stored without its blank. -/
theorem Credentials_colon_in_username_ignored :
    ("a:b" : String) ≠ "" ∧ ("c" : String) ≠ "" ∧
    (Credentials ("a:b" ++ ":" ++ "c") options.zero).username ≠ "a:b" ∧
    (Credentials ("a:b" ++ ":" ++ "c") options.zero) = options.zero ∧
    (Credentials (" a" ++ ":" ++ "c") options.zero).username ≠ " a" := by
  decide

/-- C5: for every token whose trimmed form does not split on the colon into
exactly two non-empty parts, and every starting configuration, the option
`Credentials` returns the configuration as it was, in every field. -/
theorem Credentials_malformed_unchanged (token : String) (o : options)
    (h : ¬ ∃ u p : String, u ≠ "" ∧ p ≠ "" ∧
      strings.Split (strings.TrimSpace token) ':' = [u, p]) :
    Credentials token o = o := by
  unfold Credentials
  split
  · rfl
  · rename_i hg
    exfalso
    apply h
    simp only [not_or, not_not] at hg
    obtain ⟨hlen, h0, h1⟩ := hg
    match hparts : strings.Split (strings.TrimSpace token) ':' , hlen, h0, h1 with
    | [a, b], _, h0, h1 =>
      refine ⟨a, b, ?_, ?_, rfl⟩
      · simpa [hparts] using h0
      · simpa [hparts] using h1

/-- C5 at four malformed tokens (no colon, empty user name, empty password,
two colons) on a configuration with every field set. -/
theorem Credentials_malformed_unchanged_witness :
    Credentials "nocolon" filledOptions = filledOptions ∧
    Credentials ":p" filledOptions = filledOptions ∧
    Credentials " u: " filledOptions = filledOptions ∧
    Credentials "a:b:c" filledOptions = filledOptions := by
  refine ⟨Credentials_malformed_unchanged "nocolon" filledOptions ?_,
    Credentials_malformed_unchanged ":p" filledOptions ?_,
    Credentials_malformed_unchanged " u: " filledOptions ?_,
    Credentials_malformed_unchanged "a:b:c" filledOptions ?_⟩
  · rintro ⟨u, p, _, _, hs⟩
    have : strings.Split (strings.TrimSpace "nocolon") ':' = ["nocolon"] := by decide
    rw [this] at hs
    simp at hs
  · rintro ⟨u, p, hu, _, hs⟩
    have : strings.Split (strings.TrimSpace ":p") ':' = ["", "p"] := by decide
    rw [this] at hs
    simp at hs
    exact hu hs.1.symm
  · rintro ⟨u, p, _, hp, hs⟩
    have : strings.Split (strings.TrimSpace " u: ") ':' = ["u", ""] := by decide
    rw [this] at hs
    simp at hs
    exact hp hs.2.symm
  · rintro ⟨u, p, _, _, hs⟩
    have : strings.Split (strings.TrimSpace "a:b:c") ':' = ["a", "b", "c"] := by decide
    rw [this] at hs
    simp at hs

end gist

namespace gist

/-! ## Maps -/

theorem mapSet_length {V : Type} (m : List (String × V)) (k : String) (v : V) :
    (mapSet m k v).length = if k ∈ mapKeys m then m.length else m.length + 1 := by
  induction m with
  | nil => simp [mapSet, mapKeys]
  | cons e m ih =>
    obtain ⟨k', v'⟩ := e
    by_cases h : k' = k
    · subst h
      simp [mapSet, mapKeys]
    · have h' : ¬ k = k' := fun e => h e.symm
      simp only [mapKeys] at ih
      by_cases hm : k ∈ List.map Prod.fst m
      · simp [mapSet, mapKeys, h, h', ih, hm]
      · simp [mapSet, mapKeys, h, h', ih, hm]

theorem mem_mapKeys_mapSet {V : Type} (m : List (String × V)) (k k' : String) (v : V) :
    k' ∈ mapKeys (mapSet m k v) ↔ k' = k ∨ k' ∈ mapKeys m := by
  induction m with
  | nil => simp [mapSet, mapKeys]
  | cons e m ih =>
    obtain ⟨k₀, v₀⟩ := e
    by_cases h : k₀ = k
    · subst h
      simp [mapSet, mapKeys]
    · simp only [mapKeys] at ih
      simp only [mapSet, mapKeys, h, if_false, List.map_cons, List.mem_cons, ih]
      tauto

theorem mapGet_mapSet_self {V : Type} (m : List (String × V)) (k : String) (v : V) :
    mapGet (mapSet m k v) k = some v := by
  induction m with
  | nil => simp [mapSet, mapGet]
  | cons e m ih =>
    obtain ⟨k₀, v₀⟩ := e
    by_cases h : k₀ = k
    · simp [mapSet, mapGet, h]
    · simp [mapSet, mapGet, h, ih]

theorem mapGet_mapSet_of_ne {V : Type} (m : List (String × V)) (k k' : String) (v : V)
    (hne : k' ≠ k) : mapGet (mapSet m k v) k' = mapGet m k' := by
  induction m with
  | nil => simp [mapSet, mapGet, hne.symm]
  | cons e m ih =>
    obtain ⟨k₀, v₀⟩ := e
    by_cases h : k₀ = k
    · subst h
      simp [mapSet, mapGet, hne.symm]
    · by_cases h' : k₀ = k'
      · subst h'
        simp [mapSet, mapGet, h]
      · simp [mapSet, mapGet, h, h', ih]

/-! ## Files -/

theorem Files.loop_concat (fs : FileSystem) (files : List String) (f : String) :
    Files.loop fs (files ++ [f]) = Files.step fs (Files.loop fs files) f := by
  simp [Files.loop, List.foldl_append]

theorem Files.step_error (fs : FileSystem) (st : FilesState) (f : String) (e : PlainError)
    (h : fs.ReadFile f = .error e) :
    Files.step fs st f = { st with errors := mapSet st.errors f e } := by
  simp [Files.step, h]

theorem Files.step_ok (fs : FileSystem) (st : FilesState) (f content : String)
    (h : fs.ReadFile f = .ok content) :
    Files.step fs st f
      = { st with gistFiles := mapSet st.gistFiles (filepath.Base f) ⟨content⟩ } := by
  simp [Files.step, h]

theorem FileSystem.readable_eq_false (fs : FileSystem) (f : String) :
    fs.readable f = false ↔ ∃ e, fs.ReadFile f = .error e := by
  unfold FileSystem.readable
  cases h : fs.ReadFile f <;> simp

theorem FileSystem.readable_eq_true (fs : FileSystem) (f : String) :
    fs.readable f = true ↔ ∃ c, fs.ReadFile f = .ok c := by
  unfold FileSystem.readable
  cases h : fs.ReadFile f <;> simp

/-- The keys of the failure map the loop collects are the unreadable paths. -/
theorem Files.loop_errors_keys (fs : FileSystem) (files : List String) (k : String) :
    k ∈ mapKeys (Files.loop fs files).errors ↔ k ∈ files ∧ fs.readable k = false := by
  induction files using List.reverseRecOn with
  | nil => simp [Files.loop, mapKeys]
  | append_singleton files f ih =>
    rw [Files.loop_concat]
    cases h : fs.ReadFile f with
    | error e =>
      have hf : fs.readable f = false := (fs.readable_eq_false f).2 ⟨e, h⟩
      rw [Files.step_error fs _ f e h]
      simp only [mem_mapKeys_mapSet, ih, List.mem_append, List.mem_singleton]
      constructor
      · rintro (rfl | ⟨hk, hr⟩)
        · exact ⟨Or.inr rfl, hf⟩
        · exact ⟨Or.inl hk, hr⟩
      · rintro ⟨hk | rfl, hr⟩
        · exact Or.inr ⟨hk, hr⟩
        · exact Or.inl rfl
    | ok c =>
      have hf : fs.readable f = true := (fs.readable_eq_true f).2 ⟨c, h⟩
      rw [Files.step_ok fs _ f c h]
      simp only [ih, List.mem_append, List.mem_singleton]
      constructor
      · rintro ⟨hk, hr⟩
        exact ⟨Or.inl hk, hr⟩
      · rintro ⟨hk | rfl, hr⟩
        · exact ⟨hk, hr⟩
        · rw [hf] at hr
          exact absurd hr (by decide)

/-- The keys of the record map the loop fills are the base names of the
readable paths. -/
theorem Files.loop_gistFiles_keys (fs : FileSystem) (files : List String) (k : String) :
    k ∈ mapKeys (Files.loop fs files).gistFiles
      ↔ ∃ f ∈ files, fs.readable f = true ∧ filepath.Base f = k := by
  induction files using List.reverseRecOn with
  | nil => simp [Files.loop, mapKeys]
  | append_singleton files f ih =>
    rw [Files.loop_concat]
    cases h : fs.ReadFile f with
    | error e =>
      have hf : fs.readable f = false := (fs.readable_eq_false f).2 ⟨e, h⟩
      rw [Files.step_error fs _ f e h]
      simp only [ih, List.mem_append, List.mem_singleton]
      constructor
      · rintro ⟨g, hg, hr, hb⟩
        exact ⟨g, Or.inl hg, hr, hb⟩
      · rintro ⟨g, hg | rfl, hr, hb⟩
        · exact ⟨g, hg, hr, hb⟩
        · rw [hf] at hr
          exact absurd hr (by decide)
    | ok c =>
      have hf : fs.readable f = true := (fs.readable_eq_true f).2 ⟨c, h⟩
      rw [Files.step_ok fs _ f c h]
      simp only [mem_mapKeys_mapSet, ih, List.mem_append, List.mem_singleton]
      constructor
      · rintro (rfl | ⟨g, hg, hr, hb⟩)
        · exact ⟨f, Or.inr rfl, hf, rfl⟩
        · exact ⟨g, Or.inl hg, hr, hb⟩
      · rintro ⟨g, hg | rfl, hr, hb⟩
        · exact Or.inr ⟨g, hg, hr, hb⟩
        · exact Or.inl hb.symm

theorem Files.loop_length_le (fs : FileSystem) (files : List String) :
    (Files.loop fs files).gistFiles.length + (Files.loop fs files).errors.length
      ≤ files.length := by
  induction files using List.reverseRecOn with
  | nil => simp [Files.loop]
  | append_singleton files f ih =>
    rw [Files.loop_concat]
    cases h : fs.ReadFile f with
    | error e =>
      rw [Files.step_error fs _ f e h]
      simp only [mapSet_length, List.length_append, List.length_singleton]
      split <;> omega
    | ok c =>
      rw [Files.step_ok fs _ f c h]
      simp only [mapSet_length, List.length_append, List.length_singleton]
      split <;> omega

theorem Files.loop_length_eq (fs : FileSystem) (files : List String)
    (hread : ((files.filter fs.readable).map filepath.Base).Nodup)
    (hfail : (files.filter (fun f => !fs.readable f)).Nodup) :
    (Files.loop fs files).gistFiles.length + (Files.loop fs files).errors.length
      = files.length := by
  induction files using List.reverseRecOn with
  | nil => simp [Files.loop]
  | append_singleton files f ih =>
    rw [Files.loop_concat]
    rw [List.filter_append, List.map_append, List.nodup_append] at hread
    rw [List.filter_append, List.nodup_append] at hfail
    have ih' := ih hread.1 hfail.1
    cases h : fs.ReadFile f with
    | error e =>
      have hf : fs.readable f = false := (fs.readable_eq_false f).2 ⟨e, h⟩
      rw [Files.step_error fs _ f e h]
      have hnew : f ∉ mapKeys (Files.loop fs files).errors := by
        intro hk
        have hk' := (Files.loop_errors_keys fs files f).1 hk
        have hmem : f ∈ files.filter (fun f => !fs.readable f) := by
          simp [List.mem_filter, hk'.1, hf]
        have hmem' : f ∈ [f].filter (fun f => !fs.readable f) := by
          simp [hf]
        exact hfail.2.2 hmem hmem'
      simp only [mapSet_length, hnew, if_false, List.length_append, List.length_singleton]
      omega
    | ok c =>
      have hf : fs.readable f = true := (fs.readable_eq_true f).2 ⟨c, h⟩
      rw [Files.step_ok fs _ f c h]
      have hnew : filepath.Base f ∉ mapKeys (Files.loop fs files).gistFiles := by
        intro hk
        obtain ⟨g, hg, hr, hb⟩ := (Files.loop_gistFiles_keys fs files _).1 hk
        have hmem : filepath.Base f ∈ (files.filter fs.readable).map filepath.Base :=
          List.mem_map.2 ⟨g, by simp [List.mem_filter, hg, hr], hb⟩
        have hmem' : filepath.Base f ∈ ([f].filter fs.readable).map filepath.Base := by
          simp [hf]
        exact hread.2.2 hmem hmem'
      simp only [mapSet_length, hnew, if_false, List.length_append, List.length_singleton]
      omega

theorem Files.step_gistFiles_other (fs : FileSystem) (st : FilesState) (q n : String)
    (h : fs.readable q = true → filepath.Base q ≠ n) :
    mapGet (Files.step fs st q).gistFiles n = mapGet st.gistFiles n := by
  cases hq : fs.ReadFile q with
  | error e => rw [Files.step_error fs _ q e hq]
  | ok c =>
    rw [Files.step_ok fs _ q c hq]
    have hne : n ≠ filepath.Base q := fun e =>
      h ((fs.readable_eq_true q).2 ⟨c, hq⟩) e.symm
    exact mapGet_mapSet_of_ne _ _ _ _ hne

theorem Files.foldl_gistFiles_other (fs : FileSystem) (n : String) (post : List String) :
    ∀ st : FilesState, (∀ q ∈ post, fs.readable q = true → filepath.Base q ≠ n) →
      mapGet (post.foldl (Files.step fs) st).gistFiles n = mapGet st.gistFiles n := by
  induction post with
  | nil => intro st _; rfl
  | cons q post ih =>
    intro st h
    rw [List.foldl_cons, ih _ (fun r hr => h r (List.mem_cons_of_mem _ hr)),
      Files.step_gistFiles_other fs st q n (h q (List.mem_cons_self _ _))]

/-- The error `Files` returns is `nil` on every input. -/
theorem Files_error_nil (fs : FileSystem) (files : List String) :
    (Files fs files).2 = none :=
  rfl

/-- C2, at the failing input: `missing.txt` cannot be read, the loop of `Files`
collects it with its reason, and the error `Files` returns is `nil` all the
same, so that `MustFiles` goes on. -/
theorem Files_unreadable_path_returns_nil :
    stubFS.readable "missing.txt" = false ∧
    (Files.loop stubFS ["a/x.txt", "missing.txt"]).errors
      = [("missing.txt", .external "open missing.txt: no such file or directory")] ∧
    (Files stubFS ["a/x.txt", "missing.txt"]).2 = none ∧
    (∃ opt, MustFiles stubFS ["a/x.txt", "missing.txt"] = .ok opt) := by
  refine ⟨by decide, by decide, rfl, ⟨_, rfl⟩⟩

/-- C6 as stated fails: two readable paths with one base name give one record
and no reported failure, for two input paths. -/
theorem Files_collision_breaks_count :
    stubFS.readable "a/x.txt" = true ∧ stubFS.readable "b/x.txt" = true ∧
    mapLen ((Files stubFS ["a/x.txt", "b/x.txt"]).1 options.zero).files
      + (reportedFailures (Files stubFS ["a/x.txt", "b/x.txt"]).2).length
      ≠ ["a/x.txt", "b/x.txt"].length := by
  decide

/-- C6 (as amended): for every list of file paths, the number of records in the
mapping produced by `Files` plus the number of entries in the failure set its
loop collects is at most the number of input paths; it is equal to it when the
readable paths have pairwise distinct base names and the unreadable paths are
pairwise distinct; and every key of the collected failure set is one of the
input paths. -/
theorem Files_counts (fs : FileSystem) (files : List String) (o : options) :
    mapLen ((Files fs files).1 o).files + (Files.loop fs files).errors.length
      ≤ files.length ∧
    (((files.filter fs.readable).map filepath.Base).Nodup →
      (files.filter (fun f => !fs.readable f)).Nodup →
      mapLen ((Files fs files).1 o).files + (Files.loop fs files).errors.length
        = files.length) ∧
    (∀ k ∈ mapKeys (Files.loop fs files).errors, k ∈ files) := by
  refine ⟨Files.loop_length_le fs files, Files.loop_length_eq fs files, ?_⟩
  intro k hk
  exact ((Files.loop_errors_keys fs files k).1 hk).1

/-- The amended C6 on three paths, one of them unreadable: two records and one
collected failure. -/
theorem Files_counts_witness :
    mapLen ((Files stubFS ["a/x.txt", "missing.txt", "b/y.txt"]).1 options.zero).files
      + (Files.loop stubFS ["a/x.txt", "missing.txt", "b/y.txt"]).errors.length = 3 ∧
    "missing.txt" ∈ ["a/x.txt", "missing.txt", "b/y.txt"] :=
  ⟨(Files_counts stubFS ["a/x.txt", "missing.txt", "b/y.txt"] options.zero).2.1
      (by decide) (by decide),
    (Files_counts stubFS ["a/x.txt", "missing.txt", "b/y.txt"] options.zero).2.2
      "missing.txt" (by decide)⟩

/-- A list with an element that has a property splits at the last such
element. -/
theorem exists_last_split (P : String → Prop) (files : List String)
    (h : ∃ f ∈ files, P f) :
    ∃ pre path post, files = pre ++ path :: post ∧ P path ∧ ∀ q ∈ post, ¬ P q := by
  induction files using List.reverseRecOn with
  | nil =>
    obtain ⟨f, hf, _⟩ := h
    exact absurd hf (List.not_mem_nil f)
  | append_singleton files f ih =>
    by_cases hP : P f
    · exact ⟨files, f, [], rfl, hP, fun q hq => absurd hq (List.not_mem_nil q)⟩
    · have h' : ∃ g ∈ files, P g := by
        obtain ⟨g, hg, hPg⟩ := h
        rcases List.mem_append.1 hg with hg | hg
        · exact ⟨g, hg, hPg⟩
        · rw [List.mem_singleton.1 hg] at hPg
          exact absurd hPg hP
      obtain ⟨pre, path, post, hsplit, hpath, hpost⟩ := ih h'
      refine ⟨pre, path, post ++ [f], ?_, hpath, ?_⟩
      · rw [hsplit]
        simp
      · intro q hq
        rcases List.mem_append.1 hq with hq | hq
        · exact hpost q hq
        · rw [List.mem_singleton.1 hq]
          exact hP

/-- The record under the base name of a readable path after which no readable
path has that base name holds the content of that path. -/
theorem Files.loop_record_of_last (fs : FileSystem) (pre post : List String)
    (path content : String) (hread : fs.ReadFile path = .ok content)
    (hlast : ∀ q ∈ post, fs.readable q = true → filepath.Base q ≠ filepath.Base path) :
    mapGet (Files.loop fs (pre ++ path :: post)).gistFiles (filepath.Base path)
      = some ⟨content⟩ := by
  unfold Files.loop
  rw [List.foldl_append, List.foldl_cons, Files.foldl_gistFiles_other fs _ post _ hlast,
    Files.step_ok fs _ path content hread]
  exact mapGet_mapSet_self _ _ _

/-- C7: for every list of file paths and every base name `n` that is the base
name of at least one readable path of the list, the list splits at the last
readable path whose base name is `n` (no readable path after it has that base
name), and the record `Files` stores under `n` has the content of that path. -/
theorem Files_last_path_wins (fs : FileSystem) (o : options) (files : List String)
    (n : String) (h : ∃ f ∈ files, fs.readable f = true ∧ filepath.Base f = n) :
    ∃ pre path post content, files = pre ++ path :: post ∧
      fs.ReadFile path = .ok content ∧ filepath.Base path = n ∧
      (∀ q ∈ post, ¬ (fs.readable q = true ∧ filepath.Base q = n)) ∧
      mapRead ((Files fs files).1 o).files n = some ⟨content⟩ := by
  obtain ⟨pre, path, post, hsplit, ⟨hr, hb⟩, hpost⟩ :=
    exists_last_split (fun f => fs.readable f = true ∧ filepath.Base f = n) files h
  obtain ⟨content, hc⟩ := (fs.readable_eq_true path).1 hr
  refine ⟨pre, path, post, content, hsplit, hc, hb, hpost, ?_⟩
  show mapGet (Files.loop fs files).gistFiles n = _
  rw [hsplit, ← hb]
  apply Files.loop_record_of_last fs pre post path content hc
  intro q hq hqr hqb
  exact hpost q hq ⟨hqr, hqb.trans hb⟩

/-- C7 on two readable paths with the base name `x.txt`, with an unreadable path
and a path of another name around them: the record under `x.txt` has the
content of the later of the two. -/
theorem Files_last_path_wins_witness :
    (∃ pre path post content,
      ["a/x.txt", "missing.txt", "b/x.txt", "c/y.txt"] = pre ++ path :: post ∧
      stubFS.ReadFile path = .ok content ∧ filepath.Base path = "x.txt" ∧
      (∀ q ∈ post, ¬ (stubFS.readable q = true ∧ filepath.Base q = "x.txt")) ∧
      mapRead ((Files stubFS ["a/x.txt", "missing.txt", "b/x.txt", "c/y.txt"]).1
        options.zero).files "x.txt" = some ⟨content⟩) ∧
    mapRead ((Files stubFS ["a/x.txt", "missing.txt", "b/x.txt", "c/y.txt"]).1
      options.zero).files "x.txt" = some ⟨"content of b/x.txt"⟩ :=
  ⟨Files_last_path_wins stubFS options.zero
      ["a/x.txt", "missing.txt", "b/x.txt", "c/y.txt"] "x.txt"
      ⟨"a/x.txt", by decide, by decide, by decide⟩,
    by decide⟩

/-! ## New -/

theorem Credentials_eq_wellFormed (token : String) (o : options) :
    Credentials token o =
      match wellFormedCredentials token with
      | some (u, p) => { o with anonymous := false, username := u, password := p }
      | none => o := by
  unfold Credentials wellFormedCredentials
  match strings.Split (strings.TrimSpace token) ':' with
  | [] => simp
  | [a] => simp
  | [a, b] =>
    by_cases ha : a = ""
    · simp [ha]
    · by_cases hb : b = ""
      · simp [hb]
      · simp [ha, hb]
  | a :: b :: c :: rest => simp

theorem foldl_lastWrite {α : Type} (proj : options → α) (writes : OptionCall → Option α)
    (h : ∀ c o, proj (c.option o) = (writes c).getD (proj o)) (calls : List OptionCall) :
    ∀ o : options,
      proj (calls.foldl (fun acc c => c.option acc) o) = lastWrite writes (proj o) calls := by
  induction calls with
  | nil => intro o; rfl
  | cons c cs ih =>
    intro o
    rw [List.foldl_cons, ih, h]
    unfold lastWrite
    cases hw : writes c with
    | none => simp [List.filterMap_cons, hw]
    | some a => simp [List.filterMap_cons, hw, List.getLast?_cons]

theorem New_config (calls : List OptionCall) :
    (New (calls.map OptionCall.option)).1.config
      = calls.foldl (fun acc c => c.option acc) options.zero := by
  simp [New, List.foldl_map]

/-- C8: for every list of calls of the option constructors passed to `New`, each
field of the resulting configuration is the value written by the last call that
writes the field, and the zero value when no call writes it (a well-formed
`Credentials` writes username, password and anonymous false, a malformed one
writes nothing); and the fields `Description`, `Public` and `GistFile` of the
returned `Gist` are those of that configuration. -/
theorem New_last_write_wins (calls : List OptionCall) :
    (New (calls.map OptionCall.option)).1.config.update
      = lastWrite writesUpdate "" calls ∧
    (New (calls.map OptionCall.option)).1.config.anonymous
      = lastWrite writesAnonymous false calls ∧
    (New (calls.map OptionCall.option)).1.config.description
      = lastWrite writesDescription [] calls ∧
    (New (calls.map OptionCall.option)).1.config.public
      = lastWrite writesPublic false calls ∧
    (New (calls.map OptionCall.option)).1.config.username
      = lastWrite writesUsername "" calls ∧
    (New (calls.map OptionCall.option)).1.config.password
      = lastWrite writesPassword "" calls ∧
    (New (calls.map OptionCall.option)).1.config.files
      = lastWrite writesFiles none calls ∧
    (New (calls.map OptionCall.option)).1.Description
      = (New (calls.map OptionCall.option)).1.config.description ∧
    (New (calls.map OptionCall.option)).1.Public
      = (New (calls.map OptionCall.option)).1.config.public ∧
    (New (calls.map OptionCall.option)).1.GistFile
      = (New (calls.map OptionCall.option)).1.config.files := by
  refine ⟨?_, ?_, ?_, ?_, ?_, ?_, ?_, rfl, rfl, rfl⟩
  · rw [New_config]
    refine foldl_lastWrite (fun o => o.update) writesUpdate ?_ calls options.zero
    intro c o
    cases c with
    | credentials token =>
      simp only [OptionCall.option, writesUpdate, Credentials_eq_wellFormed]
      cases wellFormedCredentials token <;> rfl
    | _ => rfl
  · rw [New_config]
    refine foldl_lastWrite (fun o => o.anonymous) writesAnonymous ?_ calls options.zero
    intro c o
    cases c with
    | credentials token =>
      simp only [OptionCall.option, writesAnonymous, Credentials_eq_wellFormed]
      cases wellFormedCredentials token <;> rfl
    | _ => rfl
  · rw [New_config]
    refine foldl_lastWrite (fun o => o.description) writesDescription ?_ calls options.zero
    intro c o
    cases c with
    | credentials token =>
      simp only [OptionCall.option, writesDescription, Credentials_eq_wellFormed]
      cases wellFormedCredentials token <;> rfl
    | _ => rfl
  · rw [New_config]
    refine foldl_lastWrite (fun o => o.public) writesPublic ?_ calls options.zero
    intro c o
    cases c with
    | credentials token =>
      simp only [OptionCall.option, writesPublic, Credentials_eq_wellFormed]
      cases wellFormedCredentials token <;> rfl
    | _ => rfl
  · rw [New_config]
    refine foldl_lastWrite (fun o => o.username) writesUsername ?_ calls options.zero
    intro c o
    cases c with
    | credentials token =>
      simp only [OptionCall.option, writesUsername, Credentials_eq_wellFormed]
      cases wellFormedCredentials token <;> rfl
    | _ => rfl
  · rw [New_config]
    refine foldl_lastWrite (fun o => o.password) writesPassword ?_ calls options.zero
    intro c o
    cases c with
    | credentials token =>
      simp only [OptionCall.option, writesPassword, Credentials_eq_wellFormed]
      cases wellFormedCredentials token <;> rfl
    | _ => rfl
  · rw [New_config]
    refine foldl_lastWrite (fun o => o.files) writesFiles ?_ calls options.zero
    intro c o
    cases c with
    | credentials token =>
      simp only [OptionCall.option, writesFiles, Credentials_eq_wellFormed]
      cases wellFormedCredentials token <;> rfl
    | _ => rfl

/-! ## Send -/

/-- C3: for every configuration with anonymous false and an empty user name,
whatever its other fields and whatever the transport, `Send` returns the error
of the missing credentials and hands no request to the transport. -/
theorem Send_missing_credentials (w : World) (gist : Gist)
    (ha : gist.config.anonymous = false) (hu : gist.config.username = "") :
    (Send w gist).1 = .returned (Response.zero,
      some (.plain (.errorf "no credentials provided and anonymous is false"))) ∧
    (Send w gist).2.length = 0 := by
  simp [Send, ha, hu]

/-- C3 on a gist made without credentials, against a transport that would
answer. -/
theorem Send_missing_credentials_witness :
    (Send (stubWorld 201 successBody) noCredentialsGist).1 = .returned (Response.zero,
      some (.plain (.errorf "no credentials provided and anonymous is false"))) ∧
    (Send (stubWorld 201 successBody) noCredentialsGist).2.length = 0 :=
  Send_missing_credentials (stubWorld 201 successBody) noCredentialsGist
    (by decide) (by decide)

theorem Send_requests (w : World) (gist : Gist) (req : Request)
    (h : req ∈ (Send w gist).2) :
    req = Send.request gist.config (json.Marshal gist) := by
  unfold Send at h
  simp only at h
  split at h
  · simp at h
  · split at h
    · simp at h
    · split at h <;> simpa using h

theorem Send_requests_body (w : World) (gist : Gist) (req : Request)
    (h : req ∈ (Send w gist).2) : req.Body = json.Marshal gist := by
  rw [Send_requests w gist req h]
  rfl

/-- When the check of the credentials passes and `http.NewRequest` accepts the
URL, `Send` hands exactly one request to the transport. -/
theorem Send_one_request (w : World) (gist : Gist)
    (hpre : ¬ (gist.config.username = "" ∧ gist.config.anonymous = false))
    (hnew : w.NewRequest "POST" (if gist.config.update = "" then GITHUB_API_URL
        else GITHUB_API_URL ++ "/" ++ gist.config.update) = none) :
    ∃ req, (Send w gist).2 = [req] := by
  have hurl : (Send.request gist.config (json.Marshal gist)).URL
      = if gist.config.update = "" then GITHUB_API_URL
        else GITHUB_API_URL ++ "/" ++ gist.config.update := by
    by_cases hup : gist.config.update = "" <;> simp [Send.request, Send.apiUrl, hup]
  have hnew' : w.NewRequest (Send.request gist.config (json.Marshal gist)).Method
      (Send.request gist.config (json.Marshal gist)).URL = none := by
    rw [hurl]
    exact hnew
  unfold Send
  simp only [if_neg hpre, hnew']
  split
  · exact ⟨_, rfl⟩
  · exact ⟨_, rfl⟩

/-- C9: for every configuration that passes the check of the credentials, every
request `Send` hands to the transport is a POST to the base endpoint followed
by `/` and the update target when the update target is not empty, and to the
base endpoint itself when it is empty; and when `http.NewRequest` accepts that
URL, `Send` hands exactly one request to the transport. -/
theorem Send_posts_to_endpoint (w : World) (gist : Gist)
    (hpre : ¬ (gist.config.username = "" ∧ gist.config.anonymous = false)) :
    (∀ req ∈ (Send w gist).2, req.Method = "POST" ∧
      req.URL = if gist.config.update = "" then GITHUB_API_URL
        else GITHUB_API_URL ++ "/" ++ gist.config.update) ∧
    (w.NewRequest "POST" (if gist.config.update = "" then GITHUB_API_URL
        else GITHUB_API_URL ++ "/" ++ gist.config.update) = none →
      ∃ req, (Send w gist).2 = [req]) := by
  constructor
  · intro req hreq
    rw [Send_requests w gist req hreq]
    refine ⟨rfl, ?_⟩
    by_cases hup : gist.config.update = "" <;> simp [Send.request, Send.apiUrl, hup]
  · intro hnew
    have hurl : (Send.request gist.config (json.Marshal gist)).URL
        = if gist.config.update = "" then GITHUB_API_URL
          else GITHUB_API_URL ++ "/" ++ gist.config.update := by
      by_cases hup : gist.config.update = "" <;> simp [Send.request, Send.apiUrl, hup]
    have hnew' : w.NewRequest (Send.request gist.config (json.Marshal gist)).Method
        (Send.request gist.config (json.Marshal gist)).URL = none := by
      rw [hurl]
      exact hnew
    unfold Send
    simp only [if_neg hpre, hnew']
    split
    · exact ⟨_, rfl⟩
    · exact ⟨_, rfl⟩

/-- C9 on the update target `abc123`: one request, to the base endpoint followed
by `/abc123`. -/
theorem Send_posts_to_endpoint_witness :
    ∃ req, (Send (stubWorld 200 successBody) updateGist).2 = [req] ∧
      req.Method = "POST" ∧ req.URL = "https://api.github.com/gists/abc123" := by
  have h := Send_posts_to_endpoint (stubWorld 200 successBody) updateGist (by decide)
  obtain ⟨req, hreq⟩ := h.2 rfl
  have hmem : req ∈ (Send (stubWorld 200 successBody) updateGist).2 := by
    rw [hreq]
    exact List.mem_singleton.2 rfl
  obtain ⟨hm, hu⟩ := h.1 req hmem
  refine ⟨req, hreq, hm, ?_⟩
  rw [hu]
  decide

/-- C10 as stated fails: the description `a`, `0xFF`, `b` is not empty, `Send`
hands one request to the transport, and the member `description` of its payload
is the text `a`, U+FFFD, `b`; decoded, it is five bytes and not the configured
description. -/
theorem Marshal_replaces_invalid_bytes :
    (New (invalidDescriptionCalls.map OptionCall.option)).1.config.description
      = [0x61, 0xFF, 0x62] ∧
    (∃ req, (Send (stubWorld 201 successBody)
        (New (invalidDescriptionCalls.map OptionCall.option)).1).2 = [req] ∧
      req.Body.field "description" = some (.str "a\uFFFDb") ∧
      unmarshalDescription req.Body = [0x61, 0xEF, 0xBF, 0xBD, 0x62] ∧
      unmarshalDescription req.Body
        ≠ (New (invalidDescriptionCalls.map OptionCall.option)).1.config.description) :=
  ⟨rfl, _, rfl, rfl, by decide, by decide⟩

/-- C10 (as amended): for every configuration `New` is given, the payload `Send`
encodes has no member `description` when the configured description is the
empty string; when it is not empty the member `description` is there and holds
the description coerced to valid UTF-8, which for a description that is valid
UTF-8 is the description itself (decoding the payload gives it back); the member
`public` is there in every case; and `Send` hands that payload to the transport
as the body of one request when the check of the credentials passes and
`http.NewRequest` accepts the URL, and no request carries anything else. -/
theorem Send_payload_description (w : World) (calls : List OptionCall) :
    ((New (calls.map OptionCall.option)).1.config.description = [] →
      (json.Marshal (New (calls.map OptionCall.option)).1).field "description" = none) ∧
    ((New (calls.map OptionCall.option)).1.config.description ≠ [] →
      (json.Marshal (New (calls.map OptionCall.option)).1).field "description"
        = some (.str (utf8.toValidText
            (New (calls.map OptionCall.option)).1.config.description))) ∧
    ((New (calls.map OptionCall.option)).1.config.description ≠ [] →
      utf8.ValidString (New (calls.map OptionCall.option)).1.config.description = true →
      ∃ text,
        (json.Marshal (New (calls.map OptionCall.option)).1).field "description"
          = some (.str text) ∧
        utf8.encodeText text = (New (calls.map OptionCall.option)).1.config.description ∧
        unmarshalDescription (json.Marshal (New (calls.map OptionCall.option)).1)
          = (New (calls.map OptionCall.option)).1.config.description) ∧
    (json.Marshal (New (calls.map OptionCall.option)).1).field "public"
      = some (.bool (New (calls.map OptionCall.option)).1.config.public) ∧
    (¬ ((New (calls.map OptionCall.option)).1.config.username = "" ∧
        (New (calls.map OptionCall.option)).1.config.anonymous = false) →
      w.NewRequest "POST"
        (if (New (calls.map OptionCall.option)).1.config.update = "" then GITHUB_API_URL
          else GITHUB_API_URL ++ "/" ++ (New (calls.map OptionCall.option)).1.config.update)
        = none →
      ∃ req, (Send w (New (calls.map OptionCall.option)).1).2 = [req] ∧
        req.Body = json.Marshal (New (calls.map OptionCall.option)).1) ∧
    (∀ req ∈ (Send w (New (calls.map OptionCall.option)).1).2,
      req.Body = json.Marshal (New (calls.map OptionCall.option)).1) := by
  have hd : (New (calls.map OptionCall.option)).1.Description
      = (New (calls.map OptionCall.option)).1.config.description := rfl
  have hp : (New (calls.map OptionCall.option)).1.Public
      = (New (calls.map OptionCall.option)).1.config.public := rfl
  have hfield : (New (calls.map OptionCall.option)).1.config.description ≠ [] →
      (json.Marshal (New (calls.map OptionCall.option)).1).field "description"
        = some (.str (utf8.toValidText
            (New (calls.map OptionCall.option)).1.config.description)) := by
    intro h
    simp [json.Marshal, JVal.field, mapGet, hd, h]
  refine ⟨?_, hfield, ?_, ?_, ?_, ?_⟩
  · intro h
    simp [json.Marshal, JVal.field, mapGet, hd, h]
  · intro h hv
    refine ⟨_, hfield h, utf8.encodeText_toValidText _ hv, ?_⟩
    unfold unmarshalDescription
    rw [hfield h]
    exact utf8.encodeText_toValidText _ hv
  · by_cases h : (New (calls.map OptionCall.option)).1.config.description = []
    · simp [json.Marshal, JVal.field, mapGet, hd, hp, h]
    · simp [json.Marshal, JVal.field, mapGet, hd, hp, h]
  · intro hpre hnew
    obtain ⟨req, hreq⟩ := (Send_one_request w _ hpre hnew)
    refine ⟨req, hreq, ?_⟩
    apply Send_requests_body w _ req
    rw [hreq]
    exact List.mem_singleton.2 rfl
  · intro req hreq
    exact Send_requests_body w _ req hreq

/-- The amended C10 on a configuration without a description and on one with
the description `notes`, sent to a transport that answers. -/
theorem Send_payload_description_witness :
    (json.Marshal (New (plainCalls.map OptionCall.option)).1).field "description" = none ∧
    (∃ text,
      (json.Marshal (New (notesCalls.map OptionCall.option)).1).field "description"
        = some (.str text) ∧
      utf8.encodeText text = (New (notesCalls.map OptionCall.option)).1.config.description ∧
      unmarshalDescription (json.Marshal (New (notesCalls.map OptionCall.option)).1)
        = (New (notesCalls.map OptionCall.option)).1.config.description) ∧
    (∃ req, (Send (stubWorld 201 successBody)
        (New (notesCalls.map OptionCall.option)).1).2 = [req] ∧
      req.Body = json.Marshal (New (notesCalls.map OptionCall.option)).1) :=
  ⟨(Send_payload_description (stubWorld 201 successBody) plainCalls).1 (by decide),
    (Send_payload_description (stubWorld 201 successBody) notesCalls).2.2.1
      (by decide) (by decide),
    (Send_payload_description (stubWorld 201 successBody) notesCalls).2.2.2.2.1
      (by decide) rfl⟩

/-- No call of `Send` returns an `Errors` as its error: before the `defer` the
errors are plain ones, and after it the error returned is the one of
`resp.Body.Close()`. -/
theorem Send_never_returns_Errors (w : World) (gist : Gist) (response : Response)
    (e : Errors) : (Send w gist).1 ≠ .returned (response, some (.errors e)) := by
  unfold Send
  simp only
  split
  · simp
  · split
    · simp
    · split
      · simp
      · rename_i resp _
        cases hb : Send.body w resp Response.zero with
        | panicked msg => simp [Send.deferred]
        | returned r =>
          obtain ⟨r1, r2⟩ := r
          cases hc : resp.Close <;> simp [Send.deferred, hc]

/-- C1, at the failing input: on the body `{"errors":[{"foo.txt":"something
bad"}]}`, with any status code, `Send` on an anonymous gist hands its request
to the transport and panics on the write to the nil map of `Errors{}`; it
returns no `Errors`. -/
theorem Send_errors_body_panics (status : Nat) :
    (stubWorld status errorsBody).UnmarshalMap errorsBody
      = .ok [("errors", .arr [.obj [("foo.txt", .str "something bad")]])] ∧
    Send (stubWorld status errorsBody) anonymousGist
      = (.panicked "assignment to entry in nil map",
          [Send.request anonymousGist.config (json.Marshal anonymousGist)]) := by
  exact ⟨rfl, rfl⟩

end gist
